import Mathlib

/- Verification of the local pipeline of mt-semantic-search (src/main.py): the embedding
cache protocol (get_data_hash / load_or_compute_embeddings), the cosine-similarity ranking
(find_similar_modules), and the target selection of main. The filesystem cache is modelled
as explicit state, Python exceptions as error values, and the external embedding provider
as an elementwise fallible function. -/

/-- A loaded module record as produced by Python's json.load: an ordered association list
from field names to string values (the dict's key insertion order matters only for
serialization questions; lookups are by key). -/
abbrev RawModule : Type := List (String × String)

/-- An embedding vector; exact rational entries stand for the float entries of the code. -/
abbrev Vec : Type := List ℚ

/-- Option-valued map over a list: models a Python comprehension in which evaluating an
element may raise; the whole computation fails if any element fails. -/
def mapOpt (f : α → Option β) : List α → Option (List β)
  | [] => some []
  | a :: l =>
    match f a, mapOpt f l with
    | some b, some bs => some (b :: bs)
    | _, _ => none

/-- One insertion step of a stable insertion sort; le x y = true means x may be placed
before y. -/
def insertS (le : α → α → Bool) (x : α) : List α → List α
  | [] => [x]
  | y :: ys => if le x y then x :: y :: ys else y :: insertS le x ys

/-- Stable sort by insertion: extensionally equal to Python's stable sorted for any total
transitive comparator, hence a faithful model of sorted(..., reverse=True)
(src/main.py:87) and of the key ordering of json.dumps(..., sort_keys=True)
(src/main.py:18). -/
def sortStable (le : α → α → Bool) : List α → List α
  | [] => []
  | x :: xs => insertS le x (sortStable le xs)

/-- Key-sorts one record's pairs, as json.dumps(..., sort_keys=True) renders a dict. -/
def sortPairs (m : RawModule) : RawModule :=
  sortStable (fun p q => decide (p.1 ≤ q.1)) m

/-- The canonical serialization of a corpus: what json.dumps(modules, sort_keys=True)
renders, one key-sorted record per module, in corpus order. -/
abbrev Digest : Type := List (List (String × String))

/-- Models get_data_hash (src/main.py:17-18): md5 of the sort_keys JSON dump of the module
list. JSON rendering is injective on these record lists, and the program uses the md5
digest only as a collision-free fingerprint compared for equality, so the digest is
modelled by the canonical key-sorted structure itself rather than by a 128-bit string. -/
def get_data_hash (modules : List RawModule) : Digest :=
  modules.map sortPairs

/-- Models load_modules (src/main.py:20-27) applied to the parsed contents of the JSON
files found in the input directory: the per-file module lists are concatenated in
iteration order. -/
def load_modules (files : List (List RawModule)) : List RawModule :=
  files.flatten

/-- Models create_module_text (src/main.py:29-31): the f-string
"{title} {content} {learning_outcomes}"; a missing key raises KeyError (none). -/
def create_module_text (m : RawModule) : Option String :=
  match m.lookup "title", m.lookup "content", m.lookup "learning_outcomes" with
  | some t, some c, some lo => some (t ++ " " ++ c ++ " " ++ lo)
  | _, _, _ => none

/-- The metadata record persisted to cache/metadata.json (src/main.py:62-67). -/
structure Metadata where
  data_hash : Digest
  model_name : String
  timestamp : String
  num_modules : ℕ
deriving DecidableEq

/-- State of one cache artifact on disk: absent, present but unreadable, or readable with
parsed content. -/
inductive FileState (α : Type) where
  | absent
  | corrupt
  | valid (a : α)
deriving DecidableEq

/-- Models os.path.exists for a cache artifact. -/
def FileState.isPresent : FileState α → Bool
  | .absent => false
  | .corrupt => true
  | .valid _ => true

/-- The cache directory: cache/embeddings.npz and cache/metadata.json. -/
structure CacheState where
  embFile : FileState (List Vec)
  metaFile : FileState Metadata
deriving DecidableEq

/-- The Python exceptions load_or_compute_embeddings can raise in this model. -/
inductive PyError where
  | keyError
  | jsonDecodeError
  | npLoadError
  | providerError
deriving DecidableEq

deriving instance DecidableEq for Except

/-- Outcome of one load_or_compute_embeddings run: the cache directory afterwards, the
returned vectors or the raised exception, and how many model.encode calls were made. -/
structure RunResult where
  state : CacheState
  outcome : Except PyError (List Vec)
  providerCalls : ℕ
deriving DecidableEq

/-- Models the batching loop (src/main.py:50-56): for i in range(0, len(texts), 32) the
slice texts[i:i+32] is encoded by one model.encode call and the batch results are
concatenated in order. The provider is an external collaborator modelled elementwise as
enc : String → Option Vec (a batch fails if the provider fails inside it). The first
component counts the encode invocations. The fuel argument is instantiated with the text
count, which the loop never exhausts. -/
def computeBatchesAux (enc : String → Option Vec) : ℕ → List String → ℕ × Option (List Vec)
  | _, [] => (0, some [])
  | 0, _ :: _ => (0, none)
  | fuel + 1, t :: ts =>
    match mapOpt enc ((t :: ts).take 32) with
    | none => (1, none)
    | some b =>
      match computeBatchesAux enc fuel (ts.drop 31) with
      | (k, none) => (k + 1, none)
      | (k, some rest) => (k + 1, some (b ++ rest))

/-- The batching loop at its call site, fuel instantiated. -/
def computeBatches (enc : String → Option Vec) (ts : List String) : ℕ × Option (List Vec) :=
  computeBatchesAux enc ts.length ts

/-- Models the recompute-and-persist path of load_or_compute_embeddings
(src/main.py:46-71): build the texts (KeyError possible), encode them in batches (provider
failure possible), then write embeddings.npz and metadata.json as a whole. The now
argument stands for datetime.now().isoformat(). -/
def computePath (enc : String → Option Vec) (now : String) (modules : List RawModule)
    (model_name : String) (st : CacheState) : RunResult :=
  match mapOpt create_module_text modules with
  | none => ⟨st, .error .keyError, 0⟩
  | some texts =>
    match computeBatches enc texts with
    | (k, none) => ⟨st, .error .providerError, k⟩
    | (k, some vecs) =>
      ⟨⟨.valid vecs, .valid ⟨get_data_hash modules, model_name, now, modules.length⟩⟩,
        .ok vecs, k⟩

/-- Models load_or_compute_embeddings (src/main.py:33-71). With force_recompute false and
both cache files present, metadata.json is read (raising if corrupt); if its data_hash and
model_name match the current corpus and model, embeddings.npz is loaded (raising if
corrupt) and its vectors are returned; otherwise the compute path runs. -/
def load_or_compute_embeddings (enc : String → Option Vec) (now : String)
    (modules : List RawModule) (model_name : String) (force_recompute : Bool)
    (st : CacheState) : RunResult :=
  if force_recompute = false ∧ st.embFile.isPresent = true ∧ st.metaFile.isPresent = true then
    match st.metaFile with
    | .absent => computePath enc now modules model_name st
    | .corrupt => ⟨st, .error .jsonDecodeError, 0⟩
    | .valid md =>
      if md.data_hash = get_data_hash modules ∧ md.model_name = model_name then
        match st.embFile with
        | .absent => computePath enc now modules model_name st
        | .corrupt => ⟨st, .error .npLoadError, 0⟩
        | .valid vs => ⟨st, .ok vs, 0⟩
      else computePath enc now modules model_name st
  else computePath enc now modules model_name st

/-- A typed view of a module record for the similarity/query phase, whose field accesses
the code performs unconditionally (src/main.py:80-81, 104-105, 111). -/
structure ModuleRec where
  module_id : String
  title : String
  content : String
  learning_outcomes : String
deriving DecidableEq, Inhabited

/-- Dot product of two vectors (zip semantics; the code's vectors share one dimension). -/
def dot : Vec → Vec → ℚ
  | x :: xs, y :: ys => x * y + dot xs ys
  | _, _ => 0

/-- Squared Euclidean norm. -/
def sqNorm (v : Vec) : ℚ := dot v v

/-- The zero-norm guard of sklearn's normalize, which cosine_similarity applies to each
row: a row of norm 0 is divided by 1 instead, so a zero vector stays zero rather than
producing NaN. Stated on squared norms. -/
def guardSq (q : ℚ) : ℚ := if q = 0 then 1 else q

/-- An exact cosine-similarity value num / sqrt den2 with den2 positive: the float the
code stores in the result dict (src/main.py:82), represented exactly. -/
structure SimVal where
  num : ℚ
  den2 : ℚ
deriving DecidableEq

/-- The similarity entry cosine_similarity([a], rows)[0] holds for row b, including the
zero-norm guard. -/
def simOf (a b : Vec) : SimVal :=
  ⟨dot a b, guardSq (sqNorm a) * guardSq (sqNorm b)⟩

/-- Embeds a rational threshold as a SimVal (t / sqrt 1). -/
def SimVal.ofRat (t : ℚ) : SimVal := ⟨t, 1⟩

/-- Decides s ≤ t for the real values the SimVals denote, by sign analysis and squaring:
models the float comparisons in the mask (src/main.py:75) and in the sort key
(src/main.py:87). -/
def SimVal.le (s t : SimVal) : Bool :=
  if 0 ≤ s.num then decide (0 ≤ t.num) && decide (s.num ^ 2 * t.den2 ≤ t.num ^ 2 * s.den2)
  else decide (0 ≤ t.num) || decide (t.num ^ 2 * s.den2 ≤ s.num ^ 2 * t.den2)

/-- The real number a SimVal denotes. -/
noncomputable def SimVal.toReal (s : SimVal) : ℝ := (s.num : ℝ) / Real.sqrt (s.den2 : ℝ)

/-- Cosine similarity as sklearn's cosine_similarity computes it, with the zero-norm
guard: the dot product divided by the product of the guarded norms. -/
noncomputable def cosineSim (a b : Vec) : ℝ :=
  (dot a b : ℝ) / (Real.sqrt (guardSq (sqNorm a) : ℝ) * Real.sqrt (guardSq (sqNorm b) : ℝ))

/-- One entry of the results list of find_similar_modules (src/main.py:78-85). -/
structure SimilarityResult where
  module_id : String
  title : String
  similarity : SimVal
deriving DecidableEq

/-- Entry i of the similarity row cosine_similarity([target], embeddings)[0]
(src/main.py:74), i.e. of the list mapping simOf target over the rows; out-of-range reads
never occur in the code and get a harmless default. -/
def simsAt (target : Vec) (embeddings : List Vec) (i : ℕ) : SimVal :=
  (embeddings.map fun e => simOf target e).getD i (SimVal.ofRat 0)

/-- Models find_similar_modules (src/main.py:73-89): similarities of the target row
against every row (itself included), the boolean mask (similarity ≥ threshold and index
different from the target), np.where collecting the masked indices in ascending order
(the similarity row has one entry per embedding row), the result dicts built in that
order, and the stable descending sort by similarity. An out-of-range index (the target
index, or modules[idx]) is an IndexError, modelled as none. -/
def find_similar_modules (module_idx : ℕ) (embeddings : List Vec) (modules : List ModuleRec)
    (threshold : ℚ) : Option (List SimilarityResult) :=
  match embeddings[module_idx]? with
  | none => none
  | some target =>
    match mapOpt (fun i => (modules[i]?).map fun m =>
        SimilarityResult.mk m.module_id m.title (simsAt target embeddings i))
        ((List.range embeddings.length).filter fun i =>
          SimVal.le (SimVal.ofRat threshold) (simsAt target embeddings i) &&
            decide (i ≠ module_idx)) with
    | none => none
    | some results =>
      some (sortStable (fun x y => SimVal.le y.similarity x.similarity) results)

/-- Models Python str.startswith via character-list comparison. -/
def strStarts (p s : String) : Bool := p.data.isPrefixOf s.data

/-- Models the target selection in main (src/main.py:104-105): the first index whose title
starts with "Parallel Programming", silently defaulting to 42. -/
def selectTargetIndex (modules : List ModuleRec) : ℕ :=
  (modules.findIdx? fun m => strStarts "Parallel Programming" m.title).getD 42

/-- Models the query phase of main (src/main.py:104-107): select the target index, then
call find_similar_modules with the default threshold 0.6. -/
def mainQuery (modules : List ModuleRec) (embeddings : List Vec) :
    Option (List SimilarityResult) :=
  find_similar_modules (selectTargetIndex modules) embeddings modules (6 / 10)

theorem mapOpt_eq_some_of {f : α → Option β} {g : α → β} :
    ∀ {l : List α}, (∀ a ∈ l, f a = some (g a)) → mapOpt f l = some (l.map g) := by
  intro l
  induction l with
  | nil => intro _; rfl
  | cons a l ih =>
    intro h
    have ha := h a (List.mem_cons_self a l)
    have hl := ih fun x hx => h x (List.mem_cons_of_mem a hx)
    simp [mapOpt, ha, hl]

theorem mapOpt_length {f : α → Option β} :
    ∀ {l : List α} {bs : List β}, mapOpt f l = some bs → bs.length = l.length := by
  intro l
  induction l with
  | nil => intro bs h; cases h; rfl
  | cons a l ih =>
    intro bs h
    simp only [mapOpt] at h
    cases hfa : f a with
    | none => rw [hfa] at h; cases h
    | some b =>
      cases hml : mapOpt f l with
      | none => rw [hfa, hml] at h; cases h
      | some bs' =>
        rw [hfa, hml] at h
        cases h
        simp [ih hml]

theorem mapOpt_getElem? {f : α → Option β} :
    ∀ {l : List α} {bs : List β}, mapOpt f l = some bs → ∀ i : ℕ, bs[i]? = (l[i]?).bind f := by
  intro l
  induction l with
  | nil => intro bs h i; cases h; simp
  | cons a l ih =>
    intro bs h i
    simp only [mapOpt] at h
    cases hfa : f a with
    | none => rw [hfa] at h; cases h
    | some b =>
      cases hml : mapOpt f l with
      | none => rw [hfa, hml] at h; cases h
      | some bs' =>
        rw [hfa, hml] at h
        cases h
        cases i with
        | zero => simp [hfa]
        | succ j => simpa using ih hml j

theorem mapOpt_append {f : α → Option β} :
    ∀ {l₁ l₂ : List α}, mapOpt f (l₁ ++ l₂) =
      match mapOpt f l₁, mapOpt f l₂ with
      | some b₁, some b₂ => some (b₁ ++ b₂)
      | _, _ => none := by
  intro l₁ l₂
  induction l₁ with
  | nil =>
    simp only [List.nil_append, mapOpt]
    cases mapOpt f l₂ <;> rfl
  | cons a l ih =>
    cases hfa : f a <;> cases hml : mapOpt f l <;> cases hml2 : mapOpt f l₂ <;>
      rw [hml, hml2] at ih <;>
      simp_all [mapOpt]

theorem insertS_perm (le : α → α → Bool) (x : α) :
    ∀ l : List α, (insertS le x l).Perm (x :: l) := by
  intro l
  induction l with
  | nil => exact List.Perm.refl _
  | cons y ys ih =>
    simp only [insertS]
    by_cases h : le x y = true
    · rw [if_pos h]
    · rw [if_neg h]
      exact (ih.cons y).trans (List.Perm.swap x y ys)

theorem sortStable_perm (le : α → α → Bool) :
    ∀ l : List α, (sortStable le l).Perm l := by
  intro l
  induction l with
  | nil => exact List.Perm.refl _
  | cons x xs ih =>
    exact (insertS_perm le x (sortStable le xs)).trans (ih.cons x)

theorem mem_insertS (le : α → α → Bool) (x : α) (l : List α) (a : α) :
    a ∈ insertS le x l ↔ a = x ∨ a ∈ l := by
  rw [(insertS_perm le x l).mem_iff, List.mem_cons]

theorem insertS_map (f : α → β) (le : β → β → Bool) (x : α) :
    ∀ l : List α, insertS le (f x) (l.map f) = (insertS (fun a b => le (f a) (f b)) x l).map f := by
  intro l
  induction l with
  | nil => rfl
  | cons y ys ih =>
    simp only [List.map_cons, insertS]
    by_cases h : le (f x) (f y) = true
    · rw [if_pos h, if_pos h]; rfl
    · rw [if_neg h, if_neg h, List.map_cons, ih]

theorem sortStable_map (f : α → β) (le : β → β → Bool) :
    ∀ l : List α, sortStable le (l.map f) = (sortStable (fun a b => le (f a) (f b)) l).map f := by
  intro l
  induction l with
  | nil => rfl
  | cons x xs ih =>
    simp only [List.map_cons, sortStable, ih, insertS_map]

theorem pairwise_true : ∀ l : List α, l.Pairwise fun _ _ => True := by
  intro l
  induction l with
  | nil => exact List.Pairwise.nil
  | cons x xs ih => exact List.Pairwise.cons (fun _ _ => trivial) ih

theorem insertS_pairwise (le : α → α → Bool) (P : α → α → Prop)
    (htrans : ∀ a b c, le a b = true → le b c = true → le a c = true)
    (htot : ∀ a b, le a b = true ∨ le b a = true) (x : α) :
    ∀ l : List α,
      l.Pairwise (fun a b => le a b = true ∧ (le b a = true → P a b)) →
      (∀ y ∈ l, P x y) →
      (insertS le x l).Pairwise (fun a b => le a b = true ∧ (le b a = true → P a b)) := by
  intro l
  induction l with
  | nil => intro _ _; simp [insertS]
  | cons y ys ih =>
    intro hR hx
    rw [List.pairwise_cons] at hR
    obtain ⟨hy, hys⟩ := hR
    simp only [insertS]
    by_cases h : le x y = true
    · rw [if_pos h]
      refine List.Pairwise.cons ?_ (List.Pairwise.cons hy hys)
      intro z hz
      rcases List.mem_cons.mp hz with rfl | hz
      · exact ⟨h, fun _ => hx z (List.mem_cons_self _ _)⟩
      · exact ⟨htrans x y z h (hy z hz).1, fun _ => hx z (List.mem_cons_of_mem _ hz)⟩
    · rw [if_neg h]
      refine List.Pairwise.cons ?_ (ih hys fun z hz => hx z (List.mem_cons_of_mem _ hz))
      intro z hz
      rcases (mem_insertS le x ys z).mp hz with h' | hz
      · rw [h']
        refine ⟨?_, fun hxy => absurd hxy h⟩
        rcases htot x y with h1 | h1
        · exact absurd h1 h
        · exact h1
      · exact hy z hz

theorem sortStable_pairwise (le : α → α → Bool) (P : α → α → Prop)
    (htrans : ∀ a b c, le a b = true → le b c = true → le a c = true)
    (htot : ∀ a b, le a b = true ∨ le b a = true) :
    ∀ l : List α, l.Pairwise P →
      (sortStable le l).Pairwise (fun a b => le a b = true ∧ (le b a = true → P a b)) := by
  intro l
  induction l with
  | nil => intro _; exact List.Pairwise.nil
  | cons x xs ih =>
    intro hP
    rw [List.pairwise_cons] at hP
    exact insertS_pairwise le P htrans htot x _ (ih hP.2)
      fun y hy => hP.1 y ((sortStable_perm le xs).subset hy)

theorem sortStable_pairwise_le (le : α → α → Bool)
    (htrans : ∀ a b c, le a b = true → le b c = true → le a c = true)
    (htot : ∀ a b, le a b = true ∨ le b a = true) (l : List α) :
    (sortStable le l).Pairwise (fun a b => le a b = true) := by
  have h := sortStable_pairwise le (fun _ _ => True) htrans htot l (pairwise_true l)
  exact h.imp fun hab => hab.1

theorem dot_comm : ∀ a b : Vec, dot a b = dot b a := by
  intro a
  induction a with
  | nil => intro b; cases b <;> rfl
  | cons x xs ih =>
    intro b
    cases b with
    | nil => rfl
    | cons y ys => simp only [dot, ih, mul_comm]

theorem sqNorm_nonneg (v : Vec) : 0 ≤ sqNorm v := by
  unfold sqNorm
  induction v with
  | nil => simp [dot]
  | cons x xs ih =>
    simp only [dot]
    have hx := mul_self_nonneg x
    linarith

theorem dot_eq_zero_left : ∀ a : Vec, sqNorm a = 0 → ∀ b, dot a b = 0 := by
  intro a
  induction a with
  | nil => intro _ b; cases b <;> rfl
  | cons x xs ih =>
    intro h b
    simp only [sqNorm, dot] at h
    have hx : 0 ≤ x * x := mul_self_nonneg x
    have hxs : 0 ≤ dot xs xs := sqNorm_nonneg xs
    have hx0 : x * x = 0 := by linarith
    have hxs0 : sqNorm xs = 0 := by unfold sqNorm; linarith
    have hx' : x = 0 := by
      have := mul_self_eq_zero.mp hx0
      exact this
    cases b with
    | nil => rfl
    | cons y ys => simp [dot, hx', ih hxs0 ys]

theorem guardSq_pos {q : ℚ} (h : 0 ≤ q) : 0 < guardSq q := by
  by_cases hq : q = 0
  · simp [guardSq, hq]
  · simp only [guardSq, if_neg hq]
    exact lt_of_le_of_ne h (Ne.symm hq)

theorem simOf_den2_pos (a b : Vec) : 0 < (simOf a b).den2 :=
  mul_pos (guardSq_pos (sqNorm_nonneg a)) (guardSq_pos (sqNorm_nonneg b))

theorem ofRat_den2_pos (t : ℚ) : 0 < (SimVal.ofRat t).den2 := one_pos

theorem ofRat_toReal (t : ℚ) : (SimVal.ofRat t).toReal = (t : ℝ) := by
  simp [SimVal.ofRat, SimVal.toReal, Real.sqrt_one]

theorem simOf_toReal (a b : Vec) : (simOf a b).toReal = cosineSim a b := by
  unfold simOf SimVal.toReal cosineSim
  have h1 : (0:ℝ) ≤ (guardSq (sqNorm a) : ℝ) := by
    exact_mod_cast (guardSq_pos (sqNorm_nonneg a)).le
  have h2 : ((guardSq (sqNorm a) * guardSq (sqNorm b) : ℚ) : ℝ) =
      (guardSq (sqNorm a) : ℝ) * (guardSq (sqNorm b) : ℝ) := by push_cast; ring
  rw [h2, Real.sqrt_mul h1]

theorem mul_sqrt_le_iff_of_nonneg {u v S T : ℝ} (hS : 0 < S) (hT : 0 < T) (h0u : 0 ≤ u) :
    u * Real.sqrt T ≤ v * Real.sqrt S ↔ (0 ≤ v ∧ u ^ 2 * T ≤ v ^ 2 * S) := by
  have ha : 0 < Real.sqrt S := Real.sqrt_pos.mpr hS
  have hb : 0 < Real.sqrt T := Real.sqrt_pos.mpr hT
  have ha2 : Real.sqrt S ^ 2 = S := Real.sq_sqrt hS.le
  have hb2 : Real.sqrt T ^ 2 = T := Real.sq_sqrt hT.le
  constructor
  · intro hle
    have h0v : 0 ≤ v := by
      by_contra hneg
      push_neg at hneg
      nlinarith [mul_nonneg h0u hb.le, mul_neg_of_neg_of_pos hneg ha]
    refine ⟨h0v, ?_⟩
    calc u ^ 2 * T = (u * Real.sqrt T) ^ 2 := by rw [mul_pow, hb2]
      _ ≤ (v * Real.sqrt S) ^ 2 := pow_le_pow_left₀ (mul_nonneg h0u hb.le) hle 2
      _ = v ^ 2 * S := by rw [mul_pow, ha2]
  · rintro ⟨h0v, hsq⟩
    have h2 : (u * Real.sqrt T) ^ 2 ≤ (v * Real.sqrt S) ^ 2 := by
      rw [mul_pow, mul_pow, ha2, hb2]; exact hsq
    exact le_of_pow_le_pow_left₀ two_ne_zero (mul_nonneg h0v ha.le) h2

theorem mul_sqrt_le_iff_of_neg {u v S T : ℝ} (hS : 0 < S) (hT : 0 < T) (h0u : u < 0) :
    u * Real.sqrt T ≤ v * Real.sqrt S ↔ (0 ≤ v ∨ v ^ 2 * S ≤ u ^ 2 * T) := by
  have ha : 0 < Real.sqrt S := Real.sqrt_pos.mpr hS
  have hb : 0 < Real.sqrt T := Real.sqrt_pos.mpr hT
  have ha2 : Real.sqrt S ^ 2 = S := Real.sq_sqrt hS.le
  have hb2 : Real.sqrt T ^ 2 = T := Real.sq_sqrt hT.le
  constructor
  · intro hle
    by_cases h0v : 0 ≤ v
    · exact Or.inl h0v
    · push_neg at h0v
      refine Or.inr ?_
      have h3 : -(v * Real.sqrt S) ≤ -(u * Real.sqrt T) := by linarith
      have h0va : 0 ≤ -(v * Real.sqrt S) := by
        nlinarith [mul_neg_of_neg_of_pos h0v ha]
      have h2 := pow_le_pow_left₀ h0va h3 2
      calc v ^ 2 * S = (v * Real.sqrt S) ^ 2 := by rw [mul_pow, ha2]
        _ = (-(v * Real.sqrt S)) ^ 2 := (neg_sq _).symm
        _ ≤ (-(u * Real.sqrt T)) ^ 2 := h2
        _ = (u * Real.sqrt T) ^ 2 := neg_sq _
        _ = u ^ 2 * T := by rw [mul_pow, hb2]
  · intro hor
    by_cases h0v : 0 ≤ v
    · have h1 : u * Real.sqrt T < 0 := mul_neg_of_neg_of_pos h0u hb
      have h2 : 0 ≤ v * Real.sqrt S := mul_nonneg h0v ha.le
      linarith
    · push_neg at h0v
      rcases hor with h0v' | hsq
      · exact absurd h0v' (not_le.mpr h0v)
      · have h2 : (-(v * Real.sqrt S)) ^ 2 ≤ (-(u * Real.sqrt T)) ^ 2 := by
          rw [neg_sq, neg_sq, mul_pow, mul_pow, ha2, hb2]; exact hsq
        have h0ub : 0 ≤ -(u * Real.sqrt T) := by
          nlinarith [mul_neg_of_neg_of_pos h0u hb]
        have h3 : -(v * Real.sqrt S) ≤ -(u * Real.sqrt T) :=
          le_of_pow_le_pow_left₀ two_ne_zero h0ub h2
        linarith

theorem SimVal.le_iff {s t : SimVal} (hs : 0 < s.den2) (ht : 0 < t.den2) :
    SimVal.le s t = true ↔ s.toReal ≤ t.toReal := by
  have hSR : (0:ℝ) < (s.den2 : ℝ) := by exact_mod_cast hs
  have hTR : (0:ℝ) < (t.den2 : ℝ) := by exact_mod_cast ht
  rw [SimVal.toReal, SimVal.toReal,
    div_le_div_iff₀ (Real.sqrt_pos.mpr hSR) (Real.sqrt_pos.mpr hTR)]
  unfold SimVal.le
  by_cases h0s : (0:ℚ) ≤ s.num
  · rw [if_pos h0s, mul_sqrt_le_iff_of_nonneg hSR hTR (by exact_mod_cast h0s)]
    simp only [Bool.and_eq_true, decide_eq_true_eq]
    constructor
    · rintro ⟨h1, h2⟩
      exact ⟨by exact_mod_cast h1, by exact_mod_cast h2⟩
    · rintro ⟨h1, h2⟩
      exact ⟨by exact_mod_cast h1, by exact_mod_cast h2⟩
  · push_neg at h0s
    rw [if_neg (not_le.mpr h0s), mul_sqrt_le_iff_of_neg hSR hTR (by exact_mod_cast h0s)]
    simp only [Bool.or_eq_true, decide_eq_true_eq]
    constructor
    · rintro (h1 | h2)
      · exact Or.inl (by exact_mod_cast h1)
      · exact Or.inr (by exact_mod_cast h2)
    · rintro (h1 | h2)
      · exact Or.inl (by exact_mod_cast h1)
      · exact Or.inr (by exact_mod_cast h2)

theorem computeBatchesAux_snd (enc : String → Option Vec) :
    ∀ (fuel : ℕ) (ts : List String), ts.length ≤ fuel →
      (computeBatchesAux enc fuel ts).2 = mapOpt enc ts := by
  intro fuel
  induction fuel with
  | zero =>
    intro ts h
    cases ts with
    | nil => rfl
    | cons t ts' => simp at h
  | succ fuel ih =>
    intro ts h
    cases ts with
    | nil => rfl
    | cons t ts' =>
      have hlen : (ts'.drop 31).length ≤ fuel := by
        simp only [List.length_drop]
        simp only [List.length_cons] at h
        omega
      have hih := ih (ts'.drop 31) hlen
      simp only [computeBatchesAux]
      conv_rhs => rw [← List.take_append_drop 32 (t :: ts')]
      rw [mapOpt_append]
      have hdrop : (t :: ts').drop 32 = ts'.drop 31 := rfl
      rw [hdrop]
      cases hmo : mapOpt enc ((t :: ts').take 32) with
      | none => rfl
      | some b =>
        cases hr : computeBatchesAux enc fuel (ts'.drop 31) with
        | mk k r =>
          rw [hr] at hih
          rw [← hih]
          cases r <;> rfl

theorem computeBatches_snd (enc : String → Option Vec) (ts : List String) :
    (computeBatches enc ts).2 = mapOpt enc ts :=
  computeBatchesAux_snd enc ts.length ts le_rfl

theorem computeBatches_fst_pos (enc : String → Option Vec) (t : String) (ts : List String) :
    1 ≤ (computeBatches enc (t :: ts)).1 := by
  show 1 ≤ (computeBatchesAux enc (t :: ts).length (t :: ts)).1
  simp only [List.length_cons]
  simp only [computeBatchesAux]
  cases hmo : mapOpt enc ((t :: ts).take 32) with
  | none => simp
  | some b =>
    cases hr : computeBatchesAux enc ts.length (ts.drop 31) with
    | mk k r => cases r <;> simp

theorem computePath_ok {enc : String → Option Vec} {now modules model_name st vs}
    (h : (computePath enc now modules model_name st).outcome = .ok vs) :
    ∃ texts, mapOpt create_module_text modules = some texts ∧
      mapOpt enc texts = some vs ∧
      computePath enc now modules model_name st =
        ⟨⟨.valid vs, .valid ⟨get_data_hash modules, model_name, now, modules.length⟩⟩,
          .ok vs, (computeBatches enc texts).1⟩ := by
  unfold computePath at h ⊢
  cases hmo : mapOpt create_module_text modules with
  | none => rw [hmo] at h; cases h
  | some texts =>
    rw [hmo] at h
    dsimp only at h ⊢
    have hsnd := computeBatches_snd enc texts
    cases hcb : computeBatches enc texts with
    | mk k r =>
      rw [hcb] at h hsnd
      cases r with
      | none => cases h
      | some vecs =>
        have hv : vecs = vs := by simpa using h
        subst hv
        refine ⟨texts, rfl, hsnd.symm, ?_⟩
        rw [hcb]

theorem computePath_state_or (enc : String → Option Vec) (now modules model_name st) :
    (computePath enc now modules model_name st).state = st ∨
      ∃ vs, (computePath enc now modules model_name st).outcome = .ok vs ∧
        (computePath enc now modules model_name st).state =
          ⟨.valid vs, .valid ⟨get_data_hash modules, model_name, now, modules.length⟩⟩ := by
  unfold computePath
  cases hmo : mapOpt create_module_text modules with
  | none => exact Or.inl rfl
  | some texts =>
    dsimp only
    cases hcb : computeBatches enc texts with
    | mk k r =>
      cases r with
      | none => exact Or.inl rfl
      | some vecs => exact Or.inr ⟨vecs, rfl, rfl⟩

theorem computePath_provider_fail {enc : String → Option Vec} {texts modules}
    (now model_name st)
    (hmo : mapOpt create_module_text modules = some texts)
    (hfail : mapOpt enc texts = none) :
    computePath enc now modules model_name st =
      ⟨st, .error .providerError, (computeBatches enc texts).1⟩ := by
  unfold computePath
  rw [hmo]
  dsimp only
  have h2 : (computeBatches enc texts).2 = none := by rw [computeBatches_snd, hfail]
  cases hcb : computeBatches enc texts with
  | mk k r =>
    rw [hcb] at h2
    cases r with
    | none => rfl
    | some vecs => cases h2

theorem load_hit {st : CacheState} {md vs} (enc : String → Option Vec)
    (now : String) (modules : List RawModule) (model_name : String)
    (hm : st.metaFile = .valid md) (he : st.embFile = .valid vs)
    (hh : md.data_hash = get_data_hash modules) (hn : md.model_name = model_name) :
    load_or_compute_embeddings enc now modules model_name false st = ⟨st, .ok vs, 0⟩ := by
  unfold load_or_compute_embeddings
  rw [hm, he]
  rw [if_pos ⟨rfl, rfl, rfl⟩]
  dsimp only
  rw [if_pos ⟨hh, hn⟩]

theorem load_not_hit {st : CacheState} {md} (enc : String → Option Vec)
    (now : String) (modules : List RawModule) (model_name : String) (force : Bool)
    (hm : st.metaFile = .valid md)
    (hmiss : ¬(md.data_hash = get_data_hash modules ∧ md.model_name = model_name)) :
    load_or_compute_embeddings enc now modules model_name force st =
      computePath enc now modules model_name st := by
  unfold load_or_compute_embeddings
  rw [hm]
  by_cases hg : (force = false ∧ st.embFile.isPresent = true ∧
      (FileState.valid md).isPresent = true)
  · rw [if_pos hg]
    dsimp only
    rw [if_neg hmiss]
  · rw [if_neg hg]

theorem load_cases (enc : String → Option Vec) (now : String) (modules : List RawModule)
    (model_name : String) (force : Bool) (st : CacheState) :
    load_or_compute_embeddings enc now modules model_name force st =
      computePath enc now modules model_name st ∨
    (∃ md vs, st.metaFile = .valid md ∧ st.embFile = .valid vs ∧
      md.data_hash = get_data_hash modules ∧ md.model_name = model_name ∧ force = false ∧
      load_or_compute_embeddings enc now modules model_name force st = ⟨st, .ok vs, 0⟩) ∨
    (∃ e, load_or_compute_embeddings enc now modules model_name force st =
      ⟨st, .error e, 0⟩) := by
  by_cases hg : (force = false ∧ st.embFile.isPresent = true ∧ st.metaFile.isPresent = true)
  · cases hm : st.metaFile with
    | absent =>
      refine Or.inl ?_
      unfold load_or_compute_embeddings
      rw [hm, if_pos (by rw [← hm]; exact hg)]
    | corrupt =>
      refine Or.inr (Or.inr ⟨.jsonDecodeError, ?_⟩)
      unfold load_or_compute_embeddings
      rw [hm, if_pos (by rw [← hm]; exact hg)]
    | valid md =>
      by_cases hc : (md.data_hash = get_data_hash modules ∧ md.model_name = model_name)
      · cases he : st.embFile with
        | absent =>
          refine Or.inl ?_
          unfold load_or_compute_embeddings
          rw [hm, if_pos (by rw [← hm]; exact hg)]
          dsimp only
          rw [if_pos hc, he]
        | corrupt =>
          refine Or.inr (Or.inr ⟨.npLoadError, ?_⟩)
          unfold load_or_compute_embeddings
          rw [hm, if_pos (by rw [← hm]; exact hg)]
          dsimp only
          rw [if_pos hc, he]
        | valid vs =>
          refine Or.inr (Or.inl ⟨md, vs, rfl, rfl, hc.1, hc.2, hg.1, ?_⟩)
          rw [hg.1]
          exact load_hit enc now modules model_name hm he hc.1 hc.2
      · refine Or.inl ?_
        unfold load_or_compute_embeddings
        rw [hm, if_pos (by rw [← hm]; exact hg)]
        dsimp only
        rw [if_neg hc]
  · refine Or.inl ?_
    unfold load_or_compute_embeddings
    rw [if_neg hg]

theorem sortPairs_perm (m : RawModule) : (sortPairs m).Perm m :=
  sortStable_perm _ m

theorem sortPairs_sorted (m : RawModule) :
    (sortPairs m).Pairwise fun p q => p.1 ≤ q.1 := by
  have h := sortStable_pairwise_le (fun p q : String × String => decide (p.1 ≤ q.1))
    (fun a b c hab hbc => by
      simp only [decide_eq_true_eq] at hab hbc ⊢
      exact le_trans hab hbc)
    (fun a b => by
      rcases le_total a.1 b.1 with h | h
      · exact Or.inl (by simpa using h)
      · exact Or.inr (by simpa using h)) m
  exact h.imp fun hab => by simpa using hab

theorem sortPairs_eq_of_perm {m1 m2 : RawModule}
    (hp : m1.Perm m2) (hn : (m1.map Prod.fst).Nodup) : sortPairs m1 = sortPairs m2 := by
  haveI : IsAntisymm (String × String) (fun p q => p.1 < q.1) :=
    ⟨fun a b h1 h2 => absurd h2 (lt_asymm h1)⟩
  have hperm : (sortPairs m1).Perm (sortPairs m2) :=
    (sortPairs_perm m1).trans (hp.trans (sortPairs_perm m2).symm)
  have hkeys : ∀ m : RawModule, (m.map Prod.fst).Nodup → ((sortPairs m).map Prod.fst).Nodup :=
    fun m h => (((sortPairs_perm m).map Prod.fst).nodup_iff).mpr h
  have hne1 : (sortPairs m1).Pairwise fun p q => p.1 ≠ q.1 := by
    have := hkeys m1 hn
    rw [List.Nodup, List.pairwise_map] at this
    exact this
  have hn2 : (m2.map Prod.fst).Nodup := ((hp.map Prod.fst).nodup_iff).mp hn
  have hne2 : (sortPairs m2).Pairwise fun p q => p.1 ≠ q.1 := by
    have := hkeys m2 hn2
    rw [List.Nodup, List.pairwise_map] at this
    exact this
  have hs1 : (sortPairs m1).Pairwise fun p q => p.1 < q.1 :=
    ((sortPairs_sorted m1).and hne1).imp fun h => lt_of_le_of_ne h.1 h.2
  have hs2 : (sortPairs m2).Pairwise fun p q => p.1 < q.1 :=
    ((sortPairs_sorted m2).and hne2).imp fun h => lt_of_le_of_ne h.1 h.2
  exact List.eq_of_perm_of_sorted hperm hs1 hs2

theorem sortPairs_ne_of_value_change {P Q : RawModule} {k v1 v2 : String} (hne : v1 ≠ v2) :
    sortPairs (P ++ (k, v1) :: Q) ≠ sortPairs (P ++ (k, v2) :: Q) := by
  intro heq
  have hp : (P ++ (k, v1) :: Q).Perm (P ++ (k, v2) :: Q) := by
    refine (sortPairs_perm _).symm.trans ?_
    rw [heq]
    exact sortPairs_perm _
  have hp2 := (List.perm_append_left_iff P).mp hp
  have hm : ((k, v1) ::ₘ (Q : Multiset (String × String))) =
      (k, v2) ::ₘ (Q : Multiset (String × String)) := by
    rw [Multiset.cons_coe, Multiset.cons_coe]
    exact Multiset.coe_eq_coe.mpr hp2
  have hcnt := congrArg (Multiset.count (k, v1)) hm
  rw [Multiset.count_cons_self,
    Multiset.count_cons_of_ne (fun h => hne (congrArg Prod.snd h))] at hcnt
  omega

theorem get_data_hash_ne {A B : List RawModule} {m1 m2 : RawModule}
    (hne : sortPairs m1 ≠ sortPairs m2) :
    get_data_hash (A ++ m1 :: B) ≠ get_data_hash (A ++ m2 :: B) := by
  intro heq
  unfold get_data_hash at heq
  rw [List.map_append, List.map_append, List.map_cons, List.map_cons] at heq
  have := List.append_cancel_left heq
  rw [List.cons.injEq] at this
  exact hne this.1

theorem simsAt_of_lt {target : Vec} {es : List Vec} {i : ℕ} (h : i < es.length) :
    simsAt target es i = simOf target (es.getD i []) := by
  unfold simsAt
  rw [List.getD_eq_getElem _ _ (by simpa using h), List.getD_eq_getElem es [] h]
  simp

theorem simsAt_den2_pos (target : Vec) (es : List Vec) (i : ℕ) :
    0 < (simsAt target es i).den2 := by
  by_cases h : i < es.length
  · rw [simsAt_of_lt h]
    exact simOf_den2_pos _ _
  · unfold simsAt
    rw [List.getD_eq_default]
    · exact one_pos
    · simpa using le_of_not_lt h

theorem simsAt_le_iff (target : Vec) (es : List Vec) (i j : ℕ) :
    SimVal.le (simsAt target es i) (simsAt target es j) = true ↔
      (simsAt target es i).toReal ≤ (simsAt target es j).toReal :=
  SimVal.le_iff (simsAt_den2_pos target es i) (simsAt_den2_pos target es j)

/-- C4: for a valid target index into embeddings of the same (hence non-zero) length as
the corpus, find_similar_modules returns exactly the modules whose cosine similarity to
the target vector is at least the threshold, excluding the target index itself, ordered by
strictly descending real similarity with ties broken by ascending corpus index; in
particular the target index never appears in its own result list. -/
theorem find_similar_modules_spec (module_idx : ℕ) (es : List Vec) (ms : List ModuleRec)
    (t : ℚ) (hidx : module_idx < es.length) (hlen : ms.length = es.length) :
    ∃ l : List ℕ,
      find_similar_modules module_idx es ms t =
        some (l.map fun i =>
          SimilarityResult.mk (ms.getD i default).module_id (ms.getD i default).title
            (simOf (es.getD module_idx []) (es.getD i []))) ∧
      l.Nodup ∧
      (∀ i : ℕ, i ∈ l ↔ i < es.length ∧ i ≠ module_idx ∧
        (t : ℝ) ≤ cosineSim (es.getD module_idx []) (es.getD i [])) ∧
      l.Pairwise (fun i j =>
        cosineSim (es.getD module_idx []) (es.getD j []) <
          cosineSim (es.getD module_idx []) (es.getD i []) ∨
        (cosineSim (es.getD module_idx []) (es.getD i []) =
          cosineSim (es.getD module_idx []) (es.getD j []) ∧ i < j)) ∧
      module_idx ∉ l := by
  have htgt : es[module_idx]? = some (es.getD module_idx []) := by
    rw [List.getElem?_eq_getElem hidx, List.getD_eq_getElem es [] hidx]
  set tgt := es.getD module_idx [] with htgtdef
  set mask : ℕ → Bool := fun i =>
    SimVal.le (SimVal.ofRat t) (simsAt tgt es i) && decide (i ≠ module_idx) with hmaskdef
  set filtered := (List.range es.length).filter mask with hfiltdef
  set g : ℕ → SimilarityResult := fun i =>
    SimilarityResult.mk (ms.getD i default).module_id (ms.getD i default).title
      (simsAt tgt es i) with hgdef
  set cmpI : ℕ → ℕ → Bool := fun i j =>
    SimVal.le (simsAt tgt es j) (simsAt tgt es i) with hcmpdef
  set l := sortStable cmpI filtered with hldef
  have hmem_filtered : ∀ i, i ∈ filtered ↔ (i < es.length ∧ mask i = true) := by
    intro i
    rw [hfiltdef, List.mem_filter, List.mem_range]
  have hlt_of_mem : ∀ i ∈ filtered, i < es.length := fun i hi =>
    ((hmem_filtered i).mp hi).1
  have hlperm : l.Perm filtered := sortStable_perm _ _
  have hmem_l : ∀ i : ℕ, i ∈ l ↔ i ∈ filtered := fun i => hlperm.mem_iff
  have hmask_iff : ∀ i, i < es.length →
      (mask i = true ↔ (i ≠ module_idx ∧ (t : ℝ) ≤ cosineSim tgt (es.getD i []))) := by
    intro i hilt
    rw [hmaskdef]
    dsimp only
    rw [Bool.and_eq_true, decide_eq_true_eq]
    rw [SimVal.le_iff (ofRat_den2_pos t) (simsAt_den2_pos tgt es i)]
    rw [ofRat_toReal, simsAt_of_lt hilt, simOf_toReal]
    tauto
  have hmapOpt : mapOpt (fun i => (ms[i]?).map fun m =>
      SimilarityResult.mk m.module_id m.title (simsAt tgt es i)) filtered =
      some (filtered.map g) := by
    apply mapOpt_eq_some_of
    intro i hi
    have hilt' : i < ms.length := by rw [hlen]; exact hlt_of_mem i hi
    rw [List.getElem?_eq_getElem hilt', Option.map_some', hgdef]
    dsimp only
    rw [List.getD_eq_getElem ms default hilt']
  refine ⟨l, ?_, ?_, ?_, ?_, ?_⟩
  · unfold find_similar_modules
    rw [htgt]
    dsimp only
    rw [← hmaskdef, ← hfiltdef, hmapOpt]
    dsimp only
    rw [sortStable_map g (fun x y => SimVal.le y.similarity x.similarity) filtered]
    show some ((sortStable cmpI filtered).map g) = _
    rw [← hldef]
    refine congrArg some (List.map_congr_left fun i hi => ?_)
    have hilt : i < es.length := hlt_of_mem i ((hmem_l i).mp hi)
    rw [hgdef]
    dsimp only
    rw [simsAt_of_lt hilt]
  · exact hlperm.nodup_iff.mpr ((List.nodup_range es.length).filter mask)
  · intro i
    rw [hmem_l i, hmem_filtered i]
    constructor
    · rintro ⟨hilt, hm⟩
      exact ⟨hilt, ((hmask_iff i hilt).mp hm).1, ((hmask_iff i hilt).mp hm).2⟩
    · rintro ⟨hilt, hne, hcos⟩
      exact ⟨hilt, (hmask_iff i hilt).mpr ⟨hne, hcos⟩⟩
  · have htrans : ∀ a b c, cmpI a b = true → cmpI b c = true → cmpI a c = true := by
      intro a b c hab hbc
      rw [hcmpdef] at hab hbc ⊢
      dsimp only at hab hbc ⊢
      rw [simsAt_le_iff] at hab hbc ⊢
      exact le_trans hbc hab
    have htot : ∀ a b, cmpI a b = true ∨ cmpI b a = true := by
      intro a b
      rw [hcmpdef]
      dsimp only
      rw [simsAt_le_iff, simsAt_le_iff]
      exact le_total _ _
    have hfp : filtered.Pairwise (· < ·) := (List.pairwise_lt_range es.length).filter mask
    have hR := sortStable_pairwise cmpI (· < ·) htrans htot filtered hfp
    rw [← hldef] at hR
    refine List.Pairwise.imp_of_mem (fun {a b} ha hb hr => ?_) hR
    have halt : a < es.length := hlt_of_mem a ((hmem_l a).mp ha)
    have hblt : b < es.length := hlt_of_mem b ((hmem_l b).mp hb)
    obtain ⟨h1, h2⟩ := hr
    rw [hcmpdef] at h1 h2
    dsimp only at h1 h2
    rw [simsAt_le_iff] at h1
    rw [simsAt_of_lt halt, simsAt_of_lt hblt, simOf_toReal, simOf_toReal] at h1
    rcases lt_or_eq_of_le h1 with hlt | heq
    · exact Or.inl hlt
    · refine Or.inr ⟨heq.symm, ?_⟩
      apply h2
      rw [simsAt_le_iff]
      rw [simsAt_of_lt halt, simsAt_of_lt hblt, simOf_toReal, simOf_toReal]
      exact le_of_eq heq.symm
  · intro hmem
    have h2 := (hmem_filtered module_idx).mp ((hmem_l module_idx).mp hmem)
    have := ((hmask_iff module_idx h2.1).mp h2.2).1
    exact this rfl

theorem load_ok_meta {enc : String → Option Vec} {now modules model_name force st vs}
    (h : (load_or_compute_embeddings enc now modules model_name force st).outcome = .ok vs) :
    ∃ md, (load_or_compute_embeddings enc now modules model_name force st).state.metaFile =
      .valid md ∧ md.data_hash = get_data_hash modules ∧ md.model_name = model_name := by
  rcases load_cases enc now modules model_name force st with
    hc | ⟨md, cvs, hm, _, hh, hn, _, heq⟩ | ⟨e, heq⟩
  · rw [hc] at h ⊢
    obtain ⟨texts, _, _, heqc⟩ := computePath_ok h
    rw [heqc]
    exact ⟨_, rfl, rfl, rfl⟩
  · rw [heq]
    exact ⟨md, hm, hh, hn⟩
  · rw [heq] at h
    simp at h

theorem get_data_hash_congr : ∀ {l1 l2 : List RawModule},
    List.Forall₂ (fun m1 m2 => m1.Perm m2 ∧ (m1.map Prod.fst).Nodup) l1 l2 →
    get_data_hash l1 = get_data_hash l2 := by
  intro l1 l2 h
  induction h with
  | nil => rfl
  | cons h1 _ ih =>
    unfold get_data_hash at ih ⊢
    rw [List.map_cons, List.map_cons, sortPairs_eq_of_perm h1.1 h1.2, ih]

theorem selectTarget_default (modules : List ModuleRec)
    (h : ∀ m ∈ modules, strStarts "Parallel Programming" m.title = false) :
    selectTargetIndex modules = 42 := by
  unfold selectTargetIndex
  rw [List.findIdx?_eq_none_iff.mpr]
  · rfl
  · intro m hm
    simpa using h m hm

/-- C6: if either vector has zero squared norm, the similarity find_similar_modules
computes for the pair is exactly 0: the numerator is zero and the guarded denominator is
positive, so an all-zero embedding scores 0 against any vector, never NaN and never an
error. -/
theorem zero_vector_similarity (a b : Vec) (h : sqNorm a = 0 ∨ sqNorm b = 0) :
    cosineSim a b = 0 ∧ (simOf a b).num = 0 ∧ 0 < (simOf a b).den2 := by
  have hdot : dot a b = 0 := by
    rcases h with h | h
    · exact dot_eq_zero_left a h b
    · rw [dot_comm]
      exact dot_eq_zero_left b h a
  refine ⟨?_, hdot, simOf_den2_pos a b⟩
  unfold cosineSim
  rw [hdot]
  simp

theorem zero_vector_similarity_witness :
    (sqNorm [0, 0] = 0 ∨ sqNorm [3, 4] = 0) ∧
    (cosineSim [0, 0] [3, 4] = 0 ∧ (simOf [0, 0] [3, 4]).num = 0 ∧
      0 < (simOf [0, 0] [3, 4]).den2) :=
  ⟨Or.inl (by norm_num [sqNorm, dot]),
    zero_vector_similarity [0, 0] [3, 4] (Or.inl (by norm_num [sqNorm, dot]))⟩

/-- C7: two corpora whose modules agree in content and order produce the same
fingerprint, regardless of how the modules were split across input files and of the key
order inside each record (keys are unique within a record, as in any parsed JSON
object): the per-record key sort of the canonical dump defeats both artifacts. -/
theorem fingerprint_stable (files1 files2 : List (List RawModule))
    (h : List.Forall₂ (fun m1 m2 => m1.Perm m2 ∧ (m1.map Prod.fst).Nodup)
      (load_modules files1) (load_modules files2)) :
    get_data_hash (load_modules files1) = get_data_hash (load_modules files2) :=
  get_data_hash_congr h

theorem fingerprint_stable_witness :
    List.Forall₂ (fun m1 m2 => m1.Perm m2 ∧ (m1.map Prod.fst).Nodup)
      (load_modules [[[("a", "1"), ("b", "2")]], [[("c", "3")]]])
      (load_modules [[[("b", "2"), ("a", "1")], [("c", "3")]]]) ∧
    get_data_hash (load_modules [[[("a", "1"), ("b", "2")]], [[("c", "3")]]]) =
      get_data_hash (load_modules [[[("b", "2"), ("a", "1")], [("c", "3")]]]) := by
  have hf : List.Forall₂ (fun m1 m2 => m1.Perm m2 ∧ (m1.map Prod.fst).Nodup)
      (load_modules [[[("a", "1"), ("b", "2")]], [[("c", "3")]]])
      (load_modules [[[("b", "2"), ("a", "1")], [("c", "3")]]]) := by
    refine List.Forall₂.cons ⟨?_, by decide⟩ (List.Forall₂.cons ⟨?_, by decide⟩ List.Forall₂.nil)
    · exact List.Perm.swap _ _ _
    · exact List.Perm.refl _
  exact ⟨hf, fingerprint_stable _ _ hf⟩

/-- C9: when no module title in the corpus starts with "Parallel Programming", the target
index main substitutes for the similarity query is 42. -/
theorem default_target_index (modules : List ModuleRec)
    (h : ∀ m ∈ modules, strStarts "Parallel Programming" m.title = false) :
    selectTargetIndex modules = 42 :=
  selectTarget_default modules h

theorem default_target_index_witness :
    (∀ m ∈ [ModuleRec.mk "id1" "Algorithms" "c" "lo"],
      strStarts "Parallel Programming" m.title = false) ∧
    selectTargetIndex [ModuleRec.mk "id1" "Algorithms" "c" "lo"] = 42 :=
  ⟨by decide, default_target_index [ModuleRec.mk "id1" "Algorithms" "c" "lo"] (by decide)⟩

/-- C10: for a corpus of at most 42 modules none of whose titles starts with "Parallel
Programming", and embeddings of the same length, the defaulted target index 42 is out of
range, so the query phase of main reaches the IndexError branch of the embedding (none)
instead of producing a ranked result. -/
theorem default_target_out_of_range (modules : List ModuleRec) (embeddings : List Vec)
    (hlen : embeddings.length = modules.length) (hsmall : modules.length ≤ 42)
    (h : ∀ m ∈ modules, strStarts "Parallel Programming" m.title = false) :
    mainQuery modules embeddings = none := by
  unfold mainQuery
  rw [selectTarget_default modules h]
  unfold find_similar_modules
  rw [List.getElem?_eq_none (by omega)]

theorem default_target_out_of_range_witness :
    ([[(1 : ℚ)]].length = [ModuleRec.mk "id1" "Algorithms" "c" "lo"].length ∧
      [ModuleRec.mk "id1" "Algorithms" "c" "lo"].length ≤ 42 ∧
      (∀ m ∈ [ModuleRec.mk "id1" "Algorithms" "c" "lo"],
        strStarts "Parallel Programming" m.title = false)) ∧
    mainQuery [ModuleRec.mk "id1" "Algorithms" "c" "lo"] [[(1 : ℚ)]] = none :=
  ⟨⟨by decide, by decide, by decide⟩,
    default_target_out_of_range [ModuleRec.mk "id1" "Algorithms" "c" "lo"] [[(1 : ℚ)]]
      (by decide) (by decide) (by decide)⟩

/-- C1: calling load_or_compute_embeddings twice with unchanged corpus and model and
force false invokes the provider zero times on the second call and returns the same
vectors as the first call: the second call takes the cache-hit path on the entry the
first call read or wrote. -/
theorem cache_idempotent (enc : String → Option Vec) (now1 now2 : String)
    (modules : List RawModule) (model_name : String) (st : CacheState) (vs : List Vec)
    (h1 : (load_or_compute_embeddings enc now1 modules model_name false st).outcome =
      .ok vs) :
    (load_or_compute_embeddings enc now2 modules model_name false
      (load_or_compute_embeddings enc now1 modules model_name false st).state).providerCalls
      = 0 ∧
    (load_or_compute_embeddings enc now2 modules model_name false
      (load_or_compute_embeddings enc now1 modules model_name false st).state).outcome =
      .ok vs := by
  rcases load_cases enc now1 modules model_name false st with
    hc | ⟨md, cvs, hm, he, hh, hn, _, heq⟩ | ⟨e, heq⟩
  · rw [hc] at h1 ⊢
    obtain ⟨texts, _, _, heqc⟩ := computePath_ok h1
    rw [heqc]
    dsimp only
    rw [@load_hit ⟨.valid vs, .valid ⟨get_data_hash modules, model_name, now1,
        modules.length⟩⟩ ⟨get_data_hash modules, model_name, now1, modules.length⟩ vs
      enc now2 modules model_name rfl rfl rfl rfl]
    exact ⟨rfl, rfl⟩
  · rw [heq] at h1 ⊢
    have hv : cvs = vs := by simpa using h1
    subst hv
    dsimp only
    rw [load_hit enc now2 modules model_name hm he hh hn]
    exact ⟨rfl, rfl⟩
  · rw [heq] at h1
    simp at h1

theorem cache_idempotent_witness :
    (load_or_compute_embeddings (fun _ => some [(1 : ℚ)]) "t1"
      [[("title", "a"), ("content", "b"), ("learning_outcomes", "c")]] "m" false
      ⟨.absent, .absent⟩).outcome = .ok [[(1 : ℚ)]] ∧
    (load_or_compute_embeddings (fun _ => some [(1 : ℚ)]) "t2"
      [[("title", "a"), ("content", "b"), ("learning_outcomes", "c")]] "m" false
      (load_or_compute_embeddings (fun _ => some [(1 : ℚ)]) "t1"
        [[("title", "a"), ("content", "b"), ("learning_outcomes", "c")]] "m" false
        ⟨.absent, .absent⟩).state).providerCalls = 0 ∧
    (load_or_compute_embeddings (fun _ => some [(1 : ℚ)]) "t2"
      [[("title", "a"), ("content", "b"), ("learning_outcomes", "c")]] "m" false
      (load_or_compute_embeddings (fun _ => some [(1 : ℚ)]) "t1"
        [[("title", "a"), ("content", "b"), ("learning_outcomes", "c")]] "m" false
        ⟨.absent, .absent⟩).state).outcome = .ok [[(1 : ℚ)]] := by
  have h := cache_idempotent (fun _ => some [(1 : ℚ)]) "t1" "t2"
    [[("title", "a"), ("content", "b"), ("learning_outcomes", "c")]] "m"
    ⟨.absent, .absent⟩ [[(1 : ℚ)]] (by decide)
  exact ⟨by decide, h.1, h.2⟩

/-- C2 counterexample: the claim as stated fails on an empty corpus: with only the model
identifier changed between two calls, the second call takes the recomputation path and
persists a new entry, but invokes the provider zero times, because the batching loop over
zero texts runs no iterations. -/
theorem cache_invalidation_counterexample :
    ("m1" : String) ≠ "m2" ∧
    (load_or_compute_embeddings (fun _ => some []) "t2" ([] : List RawModule) "m2" false
      (load_or_compute_embeddings (fun _ => some []) "t1" ([] : List RawModule) "m1" false
        ⟨.absent, .absent⟩).state).providerCalls = 0 ∧
    (load_or_compute_embeddings (fun _ => some []) "t2" ([] : List RawModule) "m2" false
      (load_or_compute_embeddings (fun _ => some []) "t1" ([] : List RawModule) "m1" false
        ⟨.absent, .absent⟩).state).state.metaFile =
      .valid ⟨get_data_hash [], "m2", "t2", 0⟩ := by
  refine ⟨by decide, rfl, rfl⟩

/-- C2 (amended): between two successful calls, changing a single field value of one
module, or the model identifier, forces the second call onto the recomputation path: it
persists a fresh complete cache entry carrying the new fingerprint and model identifier,
and it invokes the provider at least once whenever the corpus is non-empty (an empty
corpus is re-encoded in zero batches, as the counterexample exhibits). -/
theorem cache_invalidation (enc : String → Option Vec) (now1 now2 : String)
    (ms1 ms2 : List RawModule) (model1 model2 : String) (force1 : Bool) (st : CacheState)
    (vs1 vs2 : List Vec)
    (hdiff : (∃ A B P Q k v1 v2, v1 ≠ v2 ∧
        ms1 = A ++ (P ++ (k, v1) :: Q) :: B ∧ ms2 = A ++ (P ++ (k, v2) :: Q) :: B) ∨
      model1 ≠ model2)
    (h1 : (load_or_compute_embeddings enc now1 ms1 model1 force1 st).outcome = .ok vs1)
    (h2 : (load_or_compute_embeddings enc now2 ms2 model2 false
      (load_or_compute_embeddings enc now1 ms1 model1 force1 st).state).outcome =
      .ok vs2) :
    (load_or_compute_embeddings enc now2 ms2 model2 false
      (load_or_compute_embeddings enc now1 ms1 model1 force1 st).state).state =
      ⟨.valid vs2, .valid ⟨get_data_hash ms2, model2, now2, ms2.length⟩⟩ ∧
    (ms2 ≠ [] → 1 ≤ (load_or_compute_embeddings enc now2 ms2 model2 false
      (load_or_compute_embeddings enc now1 ms1 model1 force1 st).state).providerCalls) := by
  obtain ⟨md, hm, hh, hn⟩ := load_ok_meta h1
  have hmiss : ¬(md.data_hash = get_data_hash ms2 ∧ md.model_name = model2) := by
    rcases hdiff with ⟨A, B, P, Q, k, v1, v2, hv, hms1, hms2⟩ | hmodel
    · rintro ⟨hd, _⟩
      have heq : get_data_hash ms1 = get_data_hash ms2 := hh.symm.trans hd
      rw [hms1, hms2] at heq
      exact get_data_hash_ne (sortPairs_ne_of_value_change hv) heq
    · rintro ⟨_, hd2⟩
      exact hmodel (hn.symm.trans hd2)
  have hload2 := load_not_hit enc now2 ms2 model2 false hm hmiss
  rw [hload2] at h2 ⊢
  obtain ⟨texts, hmo, henc, heqc⟩ := computePath_ok h2
  rw [heqc]
  refine ⟨rfl, ?_⟩
  intro hne
  cases ms2 with
  | nil => exact absurd rfl hne
  | cons m ms' =>
    cases texts with
    | nil =>
      have := mapOpt_length hmo
      simp at this
    | cons t ts => exact computeBatches_fst_pos enc t ts

theorem cache_invalidation_witness :
    ((∃ A B P Q k v1 v2, v1 ≠ v2 ∧
        ([[("title", "a1"), ("content", "b"), ("learning_outcomes", "c")]] :
          List RawModule) = A ++ (P ++ (k, v1) :: Q) :: B ∧
        ([[("title", "a2"), ("content", "b"), ("learning_outcomes", "c")]] :
          List RawModule) = A ++ (P ++ (k, v2) :: Q) :: B) ∨ ("m" : String) ≠ "m") ∧
    (load_or_compute_embeddings (fun _ => some [(1 : ℚ)]) "t2"
      [[("title", "a2"), ("content", "b"), ("learning_outcomes", "c")]] "m" false
      (load_or_compute_embeddings (fun _ => some [(1 : ℚ)]) "t1"
        [[("title", "a1"), ("content", "b"), ("learning_outcomes", "c")]] "m" false
        ⟨.absent, .absent⟩).state).state =
      ⟨.valid [[(1 : ℚ)]],
        .valid ⟨get_data_hash [[("title", "a2"), ("content", "b"),
          ("learning_outcomes", "c")]], "m", "t2", 1⟩⟩ := by
  have hdiff : (∃ A B P Q k v1 v2, (v1 : String) ≠ v2 ∧
      ([[("title", "a1"), ("content", "b"), ("learning_outcomes", "c")]] :
        List RawModule) = A ++ (P ++ (k, v1) :: Q) :: B ∧
      ([[("title", "a2"), ("content", "b"), ("learning_outcomes", "c")]] :
        List RawModule) = A ++ (P ++ (k, v2) :: Q) :: B) ∨ ("m" : String) ≠ "m" :=
    Or.inl ⟨[], [], [], [("content", "b"), ("learning_outcomes", "c")], "title",
      "a1", "a2", by decide, rfl, rfl⟩
  have hmiss : ¬((⟨get_data_hash [[("title", "a1"), ("content", "b"),
      ("learning_outcomes", "c")]], "m", "t1", 1⟩ : Metadata).data_hash =
        get_data_hash [[("title", "a2"), ("content", "b"), ("learning_outcomes", "c")]] ∧
      (⟨get_data_hash [[("title", "a1"), ("content", "b"), ("learning_outcomes", "c")]],
        "m", "t1", 1⟩ : Metadata).model_name = "m") := by
    rintro ⟨hd, _⟩
    exact @get_data_hash_ne [] [] _ _
      (@sortPairs_ne_of_value_change [] [("content", "b"), ("learning_outcomes", "c")]
        "title" "a1" "a2" (by decide)) hd
  have h2 : (load_or_compute_embeddings (fun _ => some [(1 : ℚ)]) "t2"
      [[("title", "a2"), ("content", "b"), ("learning_outcomes", "c")]] "m" false
      (load_or_compute_embeddings (fun _ => some [(1 : ℚ)]) "t1"
        [[("title", "a1"), ("content", "b"), ("learning_outcomes", "c")]] "m" false
        ⟨.absent, .absent⟩).state).outcome = .ok [[(1 : ℚ)]] := by
    rw [load_not_hit (fun _ => some [(1 : ℚ)]) "t2"
      [[("title", "a2"), ("content", "b"), ("learning_outcomes", "c")]] "m" false rfl hmiss]
    decide
  have h := cache_invalidation (fun _ => some [(1 : ℚ)]) "t1" "t2"
    [[("title", "a1"), ("content", "b"), ("learning_outcomes", "c")]]
    [[("title", "a2"), ("content", "b"), ("learning_outcomes", "c")]] "m" "m" false
    ⟨.absent, .absent⟩ [[(1 : ℚ)]] [[(1 : ℚ)]] hdiff (by decide) h2
  exact ⟨hdiff, h.1⟩

/-- C3: the sequence load_or_compute_embeddings returns has one vector per module in
corpus order: on the recomputation path (forced here) the i-th vector is the provider's
encoding of the i-th module's text, and on the cache-hit path (matching fingerprint and
model, with a persisted entry whose count equals the corpus size) the call returns
exactly the persisted vectors, whose length then equals the corpus length. -/
theorem result_matches_corpus (enc : String → Option Vec) (now : String)
    (modules : List RawModule) (model_name : String) (st : CacheState) :
    (∀ vs, (load_or_compute_embeddings enc now modules model_name true st).outcome =
        .ok vs →
      vs.length = modules.length ∧
      ∀ i : ℕ, i < modules.length → ∃ text,
        create_module_text (modules.getD i []) = some text ∧ vs[i]? = enc text) ∧
    (∀ md cvs, st.metaFile = .valid md → st.embFile = .valid cvs →
      md.data_hash = get_data_hash modules → md.model_name = model_name →
      md.num_modules = modules.length → cvs.length = md.num_modules →
      (load_or_compute_embeddings enc now modules model_name false st).outcome = .ok cvs ∧
      cvs.length = modules.length) := by
  constructor
  · intro vs h
    have hload : load_or_compute_embeddings enc now modules model_name true st =
        computePath enc now modules model_name st := by
      unfold load_or_compute_embeddings
      rw [if_neg (by simp)]
    rw [hload] at h
    obtain ⟨texts, hmo, henc, _⟩ := computePath_ok h
    have hlen1 : texts.length = modules.length := mapOpt_length hmo
    have hlen2 : vs.length = texts.length := mapOpt_length henc
    refine ⟨hlen2.trans hlen1, ?_⟩
    intro i hi
    have hti : i < texts.length := by omega
    have hpt1 := mapOpt_getElem? hmo i
    have hpt2 := mapOpt_getElem? henc i
    rw [List.getElem?_eq_getElem hi, Option.some_bind] at hpt1
    rw [List.getElem?_eq_getElem hti, Option.some_bind] at hpt2
    rw [List.getElem?_eq_getElem hti] at hpt1
    refine ⟨texts[i], ?_, hpt2⟩
    rw [List.getD_eq_getElem modules [] hi]
    exact hpt1.symm
  · intro md cvs hm he hh hn hcount hclen
    rw [load_hit enc now modules model_name hm he hh hn]
    exact ⟨rfl, by rw [hclen, hcount]⟩

theorem result_matches_corpus_witness :
    (load_or_compute_embeddings (fun _ => some [(1 : ℚ)]) "now"
      [[("title", "a"), ("content", "b"), ("learning_outcomes", "c")]] "m" true
      ⟨.absent, .absent⟩).outcome = .ok [[(1 : ℚ)]] ∧
    ([[(1 : ℚ)]] : List Vec).length =
      [[("title", "a"), ("content", "b"), ("learning_outcomes", "c")]].length ∧
    ∀ i : ℕ, i < [[("title", "a"), ("content", "b"), ("learning_outcomes", "c")]].length →
      ∃ text, create_module_text
          ([[("title", "a"), ("content", "b"), ("learning_outcomes", "c")]].getD i []) =
          some text ∧
        ([[(1 : ℚ)]] : List Vec)[i]? = (fun _ => some [(1 : ℚ)] : String → Option Vec) text := by
  have h := (result_matches_corpus (fun _ => some [(1 : ℚ)]) "now"
    [[("title", "a"), ("content", "b"), ("learning_outcomes", "c")]] "m"
    ⟨.absent, .absent⟩).1 [[(1 : ℚ)]] (by decide)
  exact ⟨by decide, h.1, h.2⟩

theorem find_similar_modules_spec_witness :
    (0 < ([[(1 : ℚ)], [1]] : List Vec).length ∧
      [ModuleRec.mk "i1" "t1" "c" "l", ModuleRec.mk "i2" "t2" "c" "l"].length =
        ([[(1 : ℚ)], [1]] : List Vec).length) ∧
    ∃ l : List ℕ,
      find_similar_modules 0 [[(1 : ℚ)], [1]]
          [ModuleRec.mk "i1" "t1" "c" "l", ModuleRec.mk "i2" "t2" "c" "l"] 0 =
        some (l.map fun i =>
          SimilarityResult.mk
            (([ModuleRec.mk "i1" "t1" "c" "l", ModuleRec.mk "i2" "t2" "c" "l"].getD i
              default)).module_id
            (([ModuleRec.mk "i1" "t1" "c" "l", ModuleRec.mk "i2" "t2" "c" "l"].getD i
              default)).title
            (simOf (([[(1 : ℚ)], [1]] : List Vec).getD 0 [])
              (([[(1 : ℚ)], [1]] : List Vec).getD i []))) ∧
      0 ∉ l := by
  obtain ⟨l, h1, _, _, _, h5⟩ := find_similar_modules_spec 0 [[(1 : ℚ)], [1]]
    [ModuleRec.mk "i1" "t1" "c" "l", ModuleRec.mk "i2" "t2" "c" "l"] 0
    (by decide) (by decide)
  exact ⟨⟨by decide, by decide⟩, l, h1, h5⟩

/-- C5 counterexample: with both cache files present but the metadata file corrupt, the
call propagates the JSON read error as its outcome instead of recovering by
recomputation: no vectors are returned, the provider is never invoked, and the cache is
left untouched. -/
theorem corrupt_cache_counterexample :
    (load_or_compute_embeddings (fun _ => some [(1 : ℚ)]) "t"
      ([] : List RawModule) "m" false ⟨.valid [], .corrupt⟩).outcome =
      .error .jsonDecodeError ∧
    (load_or_compute_embeddings (fun _ => some [(1 : ℚ)]) "t"
      ([] : List RawModule) "m" false ⟨.valid [], .corrupt⟩).providerCalls = 0 ∧
    (load_or_compute_embeddings (fun _ => some [(1 : ℚ)]) "t"
      ([] : List RawModule) "m" false ⟨.valid [], .corrupt⟩).state =
      ⟨.valid [], .corrupt⟩ :=
  ⟨rfl, rfl, rfl⟩

/-- C5 (amended): a persisted-but-corrupt cache entry is NOT treated as a cache miss:
with force false and both files present, a corrupt metadata file raises the JSON decode
error, and a corrupt archive under matching metadata raises the numpy load error; in both
cases the error propagates as the outcome, nothing is recomputed and nothing is written.
Only absent cache files or a fingerprint/model mismatch lead to recomputation. -/
theorem corrupt_cache_raises (enc : String → Option Vec) (now : String)
    (modules : List RawModule) (model_name : String) :
    (∀ st : CacheState, st.metaFile = .corrupt → st.embFile.isPresent = true →
      load_or_compute_embeddings enc now modules model_name false st =
        ⟨st, .error .jsonDecodeError, 0⟩) ∧
    (∀ st md, st.metaFile = .valid md → st.embFile = .corrupt →
      md.data_hash = get_data_hash modules → md.model_name = model_name →
      load_or_compute_embeddings enc now modules model_name false st =
        ⟨st, .error .npLoadError, 0⟩) := by
  constructor
  · intro st hm he
    unfold load_or_compute_embeddings
    rw [hm]
    rw [if_pos ⟨rfl, he, rfl⟩]
  · intro st md hm he hh hn
    unfold load_or_compute_embeddings
    rw [hm, he]
    rw [if_pos ⟨rfl, rfl, rfl⟩]
    dsimp only
    rw [if_pos ⟨hh, hn⟩]

theorem corrupt_cache_raises_witness :
    ((⟨.valid [], .corrupt⟩ : CacheState).metaFile = .corrupt ∧
      (⟨.valid [], .corrupt⟩ : CacheState).embFile.isPresent = true) ∧
    load_or_compute_embeddings (fun _ => some [(1 : ℚ)]) "t" ([] : List RawModule) "m"
      false ⟨.valid [], .corrupt⟩ = ⟨⟨.valid [], .corrupt⟩, .error .jsonDecodeError, 0⟩ :=
  ⟨⟨rfl, rfl⟩, (corrupt_cache_raises (fun _ => some [(1 : ℚ)]) "t" [] "m").1
    ⟨.valid [], .corrupt⟩ rfl rfl⟩

/-- C8: no partial cache write: if building the texts succeeds but the provider fails on
some batch of a forced recomputation, the run raises the provider error with the cache
exactly as it was (neither the archive nor the metadata is written); and in general every
run either leaves the cache untouched or publishes the complete fresh entry (full vector
list plus matching metadata) of a successful computation. -/
theorem no_partial_cache_write (enc : String → Option Vec) (now : String)
    (modules : List RawModule) (model_name : String) (st : CacheState) :
    (∀ texts, mapOpt create_module_text modules = some texts → mapOpt enc texts = none →
      (load_or_compute_embeddings enc now modules model_name true st).state = st ∧
      (load_or_compute_embeddings enc now modules model_name true st).outcome =
        .error .providerError) ∧
    (∀ force, (load_or_compute_embeddings enc now modules model_name force st).state = st ∨
      ∃ vs, (load_or_compute_embeddings enc now modules model_name force st).outcome =
          .ok vs ∧
        (load_or_compute_embeddings enc now modules model_name force st).state =
          ⟨.valid vs, .valid ⟨get_data_hash modules, model_name, now, modules.length⟩⟩) := by
  constructor
  · intro texts hmo hfail
    have hload : load_or_compute_embeddings enc now modules model_name true st =
        computePath enc now modules model_name st := by
      unfold load_or_compute_embeddings
      rw [if_neg (by simp)]
    rw [hload, computePath_provider_fail now model_name st hmo hfail]
    exact ⟨rfl, rfl⟩
  · intro force
    rcases load_cases enc now modules model_name force st with
      hc | ⟨md, cvs, _, _, _, _, _, heq⟩ | ⟨e, heq⟩
    · rw [hc]
      exact computePath_state_or enc now modules model_name st
    · rw [heq]
      exact Or.inl rfl
    · rw [heq]
      exact Or.inl rfl

theorem no_partial_cache_write_witness :
    (mapOpt create_module_text
        [[("title", "a"), ("content", "b"), ("learning_outcomes", "c")]] =
        some ["a b c"] ∧
      mapOpt (fun _ => (none : Option Vec)) ["a b c"] = none) ∧
    ((load_or_compute_embeddings (fun _ => none) "t"
        [[("title", "a"), ("content", "b"), ("learning_outcomes", "c")]] "m" true
        ⟨.absent, .absent⟩).state = ⟨.absent, .absent⟩ ∧
      (load_or_compute_embeddings (fun _ => none) "t"
        [[("title", "a"), ("content", "b"), ("learning_outcomes", "c")]] "m" true
        ⟨.absent, .absent⟩).outcome = .error .providerError) :=
  ⟨⟨by decide, by decide⟩,
    (no_partial_cache_write (fun _ => none) "t"
      [[("title", "a"), ("content", "b"), ("learning_outcomes", "c")]] "m"
      ⟨.absent, .absent⟩).1 ["a b c"] (by decide) (by decide)⟩
